import Mathlib

/-!
Verification of the spimex bulletin crawler (src/main.py) against its
natural-language specification.  The Python source is shallowly embedded:
pure functions become Lean functions, the asyncio crawl loop becomes an
explicit fuel-indexed state-passing loop, the report directory and the html
cache become association lists, and the network is an oracle supplied by a
crawl environment.
-/

namespace Spimex

/-- A cell value as returned by xlrd cell_value: a text cell or a numeric
cell.  Numeric cells are modelled with integers, since the only operation
the program performs on a numeric value is the Python truthiness test,
which for numbers is a comparison with zero. -/
inductive XlsValue
  | str (s : String)
  | num (n : Int)
deriving DecidableEq

/-- Python truthiness of a cell value: the empty string and the number zero
are falsy, everything else is truthy.  This is the test `if not price`
performed in download_and_analyze_report. -/
def XlsValue.isFalsy : XlsValue → Bool
  | .str s => s.isEmpty
  | .num n => n == 0

/-- A worksheet as exposed by xlrd: a fixed column count and a list of rows,
each row a list of cell values.  Cells outside a row are empty. -/
structure Sheet where
  ncols : Nat
  rows : List (List XlsValue)
deriving DecidableEq

/-- Number of rows, xlrd sheet.nrows. -/
def Sheet.nrows (s : Sheet) : Nat := s.rows.length

/-- xlrd sheet.cell_value(r, c); missing cells read as the empty string,
exactly as xlrd reports empty cells. -/
def Sheet.cell_value (s : Sheet) (r c : Nat) : XlsValue :=
  (((s.rows.get? r).getD []).get? c).getD (.str "")

/-- xlrd sheet.col_values(c): the values of column c down all rows, empty
cells reading as the empty string. -/
def Sheet.col_values (s : Sheet) (c : Nat) : List XlsValue :=
  s.rows.map (fun row => (row.get? c).getD (.str ""))

/-- xlrd sheet.row_values(r): the values of row r across all ncols columns,
empty cells reading as the empty string. -/
def Sheet.row_values (s : Sheet) (r : Nat) : List XlsValue :=
  (List.range s.ncols).map (fun c => (((s.rows.get? r).getD []).get? c).getD (.str ""))

/-- get_market_price from src/main.py: scan every column index, remembering
the last one whose values contain colname; if one was found, scan every row
index, remembering the cell at (row, colindex) for the last row whose values
contain rowname; the initial value of price is the empty string. -/
def get_market_price (sheet : Sheet) (rowname colname : String) : XlsValue :=
  let colindex : Option Nat :=
    (List.range sheet.ncols).foldl
      (fun acc i => if (sheet.col_values i).contains (.str colname) then some i else acc)
      none
  match colindex with
  | none => .str ""
  | some ci =>
      (List.range sheet.nrows).foldl
        (fun price i => if (sheet.row_values i).contains (.str rowname) then sheet.cell_value i ci else price)
        (.str "")

/-- The last index below n satisfying p, following the wording of the
specification: the search is not short-circuited and the last match wins. -/
def lastIdxWith (n : Nat) (p : Nat → Bool) : Option Nat :=
  ((List.range n).filter p).getLast?

/-- The column index selected by the specification: the last column whose
values contain the column label exactly. -/
def specColIndex (s : Sheet) (colname : String) : Option Nat :=
  lastIdxWith s.ncols (fun i => (s.col_values i).contains (.str colname))

/-- The row index selected by the specification: the last row whose values
contain the row label exactly. -/
def specRowIndex (s : Sheet) (rowname : String) : Option Nat :=
  lastIdxWith s.nrows (fun i => (s.row_values i).contains (.str rowname))

/-- The sheet of the example in the specification: a header row with the
column labels A, Рыночная, B followed by one data row. -/
def exampleSheet : Sheet :=
  ⟨3, [[.str "A", .str "Рыночная", .str "B"],
       [.str "x", .str "A592UFM060F", .str "42.5"]]⟩

/-! ### datetime.strptime with format %d.%m.%Y

The crawl parses each display date with datetime.strptime(date, "%d.%m.%Y").
CPython matches %d against one or two digits with value 1..31, %m against
one or two digits with value 1..12, %Y against exactly four digits, the
dots literally and the whole string exactly; the datetime constructor then
requires a positive year and a day that exists in the given month. -/

/-- The numeric value of a non-empty all-digit character list, none
otherwise. -/
def digitsVal (cs : List Char) : Option Nat :=
  if cs ≠ [] ∧ cs.all (·.isDigit) then
    some (cs.foldl (fun a c => a * 10 + (c.toNat - 48)) 0)
  else none

/-- Gregorian leap year test used by the datetime constructor. -/
def isLeap (y : Nat) : Bool :=
  y % 4 == 0 && (y % 100 != 0 || y % 400 == 0)

/-- Number of days of month m in year y. -/
def daysInMonth (m y : Nat) : Nat :=
  if m == 2 then (if isLeap y then 29 else 28)
  else if m == 4 || m == 6 || m == 9 || m == 11 then 30
  else 31

/-- Split a character list into the groups between the dots (the dots
themselves are dropped); the result always has one group more than the
string has dots. -/
def splitOnDot : List Char → List (List Char)
  | [] => [[]]
  | c :: rest =>
      if c = '.' then [] :: splitOnDot rest
      else
        match splitOnDot rest with
        | [] => [[c]]
        | g :: gs => (c :: g) :: gs

/-- datetime.strptime(s, "%d.%m.%Y") as a partial function: some (d, m, y)
when the string parses, none when strptime would raise ValueError. -/
def strptime (s : String) : Option (Nat × Nat × Nat) :=
  match splitOnDot s.toList with
  | [ds, ms, ys] =>
      match digitsVal ds, digitsVal ms, digitsVal ys with
      | some d, some m, some y =>
          if ds.length ≤ 2 ∧ ms.length ≤ 2 ∧ ys.length = 4 ∧
             1 ≤ d ∧ 1 ≤ m ∧ m ≤ 12 ∧ 1 ≤ y ∧ d ≤ daysInMonth m y then
            some (d, m, y)
          else none
      | _, _, _ => none
  | _ => none

/-! ### The html page cache (get_html_page)

get_html_page is modelled over an explicit world holding the on-disk cache
directory (one file per page index), the remote site (the text the GET for
a given page index returns with status 200; the url and the page parameter
are both determined by the index) and a counter of network fetches
performed.  The semaphore taken inside get_html_page is modelled separately
below, since it is created afresh inside every call and therefore carries
no state between calls. -/

structure HtmlWorld where
  cacheFiles : List (Nat × String)
  net : Nat → String
  fetches : Nat

/-- get_html_page from src/main.py: if the cache file for the index exists
its content is returned; otherwise the page is fetched from the network,
written to the cache file, and returned. -/
def get_html_page (w : HtmlWorld) (count : Nat) : HtmlWorld × String :=
  match w.cacheFiles.lookup count with
  | some data => (w, data)
  | none =>
      let data := w.net count
      (⟨(count, data) :: w.cacheFiles, w.net, w.fetches + 1⟩, data)

/-! ### The semaphore discipline (lines 57-59 and 165-167)

Both get_html_page and download_xls execute
sema = asyncio.BoundedSemaphore(5) and then acquire sema before opening a
connection.  The semaphore is a value created inside the call, so each
operation acquires from its own private five-slot semaphore.  A semaphore is
modelled by its free-slot count. -/

/-- asyncio.BoundedSemaphore(n): a fresh semaphore with n free slots. -/
def mkBoundedSemaphore (n : Nat) : Nat := n

/-- Acquiring a slot: succeeds, with one slot fewer, exactly when a slot is
free; otherwise the acquirer blocks (none). -/
def tryAcquire (sem : Nat) : Option Nat :=
  if sem > 0 then some (sem - 1) else none

/-- The acquisition a network operation performs in src/main.py: a fresh
five-slot semaphore is created inside the call and one slot of it is
acquired.  The number of operations already in flight plays no role. -/
def codeOpAcquire (_inflight : Nat) : Option Nat :=
  tryAcquire (mkBoundedSemaphore 5)

/-- Modelled from the spec: acquiring a slot from a single five-slot bound
shared by all network operations, the state being the shared count of free
slots. -/
def sharedOpAcquire (shared : Nat) : Option Nat :=
  tryAcquire shared

/-- Modelled from the spec: the shared count of free slots after k
successful acquisitions from the single shared five-slot bound, none when
some acquisition blocked. -/
def sharedAfter : Nat → Option Nat
  | 0 => some (mkBoundedSemaphore 5)
  | k + 1 => (sharedAfter k).bind sharedOpAcquire

/-- Under the code, every one of k concurrently started operations acquires
successfully, whatever k is. -/
def codeAllAcquire (k : Nat) : Bool :=
  (List.range k).all (fun i => (codeOpAcquire i).isSome)

/-- Modelled from the spec: whether k concurrently started operations can
all hold a slot of the single shared five-slot bound at once. -/
def sharedAllAcquire (k : Nat) : Bool :=
  (sharedAfter k).isSome

/-! ### The crawl (get_records and download_and_analyze_report)

The listing blocks found by get_html_elements on a page are modelled
directly: an element has an optional anchor (element.find with the a tag
and href=True, none when no such anchor exists) and an optional span text
(element.find with the span tag, none when no span exists).  An anchor
carries its href and its list of direct child strings: the BeautifulSoup
membership test, the expression text_to_search in tag of line 128, holds
exactly when one of the direct children of the tag equals the string.

A crawl environment gives, for every page count, the element list of that
page (the composite of the network fetch, the html cache and the parse by
css class, which involve no logic the claims depend on beyond the cache
model above), and for every href the sheet contained in the xls file that
downloading that href yields.  Responses are assumed to have status 200;
a non-2xx response would fail the assert and abort the run, a case none of
the claims exercises.

The report directory is an association list from file name to sheet.  The
asyncio driving of get_records is sequential: each loop iteration creates
the task for the current page and then blocks in run_until_complete on all
tasks created so far, so the new task runs to completion before the next
iteration begins; the loop is therefore modelled as a fuel-indexed
recursion, and each iteration contributes a launch event and a complete
event to a trace. -/

structure ATag where
  href : String
  children : List String
deriving DecidableEq

structure Element where
  anchor : Option ATag
  spanText : Option String
deriving DecidableEq

structure CrawlEnv where
  pages : Nat → List Element
  sheetAt : String → Sheet

/-- The marker phrase text_to_search of get_records. -/
def textToSearch : String := "Бюллетень по итогам торгов в Секции «Нефтепродукты»"

/-- target_col of download_and_analyze_report. -/
def targetCol : String := "Рыночная"

/-- target_row of download_and_analyze_report. -/
def targetRow : String := "A592UFM060F"

/-- The REPORTS_FOLDER directory: file name to sheet content. -/
abbrev Reports := List (String × Sheet)

/-- path.unlink(): remove the file with the given name. -/
def eraseKey (fs : Reports) (k : String) : Reports :=
  fs.filter (fun e => e.1 ≠ k)

/-- download_xls from src/main.py: fetch the href and write the body to the
destination path in the report directory.  The semaphore it takes is
modelled by codeOpAcquire above. -/
def download_xls (env : CrawlEnv) (href : String) (fs : Reports) (path : String) : Reports :=
  (path, env.sheetAt href) :: fs

/-- Lines 132-134 of src/main.py followed by the open in get_market_price:
if the destination file does not exist the xls is downloaded to it; the
sheet then read from the file is returned together with the directory. -/
def ensureFile (env : CrawlEnv) (fs : Reports) (href path : String) : Reports × Sheet :=
  match fs.lookup path with
  | some s => (fs, s)
  | none => (download_xls env href fs path, env.sheetAt href)

/-- One output record of get_records: the parsed date, the price and the
path of the cached spreadsheet. -/
structure Record where
  date : Nat × Nat × Nat
  price : XlsValue
  path : String
deriving DecidableEq

/-- The exceptions that can escape one loop body of
download_and_analyze_report: ValueError (raised on a falsy price, or by
strptime on an unparsable date; caught by get_records and turned into a
break) and the markup failures, the TypeError of the membership test on a
missing anchor and the AttributeError of reading text on a missing span
(not caught: they abort the run). -/
inductive CrawlErr
  | valueError
  | markupError
deriving DecidableEq

/-- The outcome of processing one element of a page (one iteration of the
for loop of download_and_analyze_report): the report directory afterwards,
the record appended (if any), the extraction performed on this element as a
pair of the date string and the price it returned (if the element was
processed that far), and the exception raised (if any). -/
structure StepRes where
  fs : Reports
  record : Option Record
  ext : Option (String × XlsValue)
  err : Option CrawlErr
deriving DecidableEq

/-- One iteration of the for loop of download_and_analyze_report, lines
124-147 of src/main.py: find the anchor; test the marker phrase against the
direct children of the anchor; read the span text as the date; download the
xls to date.xls unless that file already exists; extract the market price
from the file at that path; on a falsy price delete the file and raise
ValueError; otherwise parse the date (strptime raises ValueError on
failure) and append the record. -/
def processOne (env : CrawlEnv) (fs : Reports) (el : Element) : StepRes :=
  match el.anchor with
  | none => ⟨fs, none, none, some .markupError⟩
  | some tag =>
      if tag.children.contains textToSearch then
        match el.spanText with
        | none => ⟨fs, none, none, some .markupError⟩
        | some date =>
            let path := date ++ ".xls"
            let dl := ensureFile env fs tag.href path
            let fs1 := dl.1
            let sheet := dl.2
            let price := get_market_price sheet targetRow targetCol
            if price.isFalsy then
              ⟨eraseKey fs1 path, none, some (date, price), some .valueError⟩
            else
              match strptime date with
              | none => ⟨fs1, none, some (date, price), some .valueError⟩
              | some dt => ⟨fs1, some ⟨dt, price, path⟩, some (date, price), none⟩
      else ⟨fs, none, none, none⟩

/-- The outcome of one whole page task: the report directory afterwards,
the records appended in order, the extractions performed in order, and the
exception that ended the page early (if any). -/
structure ListRes where
  fs : Reports
  recs : List Record
  exts : List (String × XlsValue)
  err : Option CrawlErr
deriving DecidableEq

/-- The for loop of download_and_analyze_report over the elements of a
page, stopping at the first exception. -/
def processList (env : CrawlEnv) (fs : Reports) : List Element → ListRes
  | [] => ⟨fs, [], [], none⟩
  | el :: rest =>
      let r := processOne env fs el
      match r.err with
      | some e => ⟨r.fs, r.record.toList, r.ext.toList, some e⟩
      | none =>
          let l := processList env r.fs rest
          ⟨l.fs, r.record.toList ++ l.recs, r.ext.toList ++ l.exts, l.err⟩

/-- download_and_analyze_report for one page: fetch and parse the page
(the element list the environment gives for this count) and run the for
loop over its elements. -/
def download_and_analyze_report (env : CrawlEnv) (fs : Reports) (count : Nat) : ListRes :=
  processList env fs (env.pages count)

/-- Scheduling events of the crawl loop: the creation of the task for a
page and the completion of that task. -/
inductive Ev
  | launch (n : Nat)
  | complete (n : Nat)
deriving DecidableEq

/-- How a run ended: fuel ran out while the loop was still going, the loop
broke out of the while on a ValueError and returned its records, or an
uncaught markup exception aborted the run. -/
inductive Outcome
  | fuelOut
  | stopped
  | markupAbort
deriving DecidableEq

/-- The result of a run of get_records: the report directory, the records
accumulated, the extractions performed, the scheduling trace and the way
the run ended. -/
structure RunRes where
  fs : Reports
  records : List Record
  exts : List (String × XlsValue)
  trace : List Ev
  outcome : Outcome
deriving DecidableEq

/-- The while loop of get_records, fuel-indexed: each iteration launches
the task for the current page count, runs it to completion (the loop blocks
in run_until_complete on all tasks created so far, so the newly created
task finishes before the next iteration), and then either continues with
the next count, breaks on ValueError, or aborts on a markup exception. -/
def crawlLoop (env : CrawlEnv) : Nat → Nat → Reports → RunRes
  | 0, _, fs => ⟨fs, [], [], [], .fuelOut⟩
  | fuel + 1, count, fs =>
      let l := download_and_analyze_report env fs count
      match l.err with
      | none =>
          let r := crawlLoop env fuel (count + 1) l.fs
          ⟨r.fs, l.recs ++ r.records, l.exts ++ r.exts,
            Ev.launch count :: Ev.complete count :: r.trace, r.outcome⟩
      | some .valueError =>
          ⟨l.fs, l.recs, l.exts, [Ev.launch count, Ev.complete count], .stopped⟩
      | some .markupError =>
          ⟨l.fs, l.recs, l.exts, [Ev.launch count, Ev.complete count], .markupAbort⟩

/-- get_records started on a report directory fs0 left by earlier runs.
The page count starts at 1; page 1 carries no pagination parameter and page
n past 1 carries page-(n-1), both absorbed into the page oracle of the
environment. -/
def get_records_from (env : CrawlEnv) (fs0 : Reports) (fuel : Nat) : RunRes :=
  crawlLoop env fuel 1 fs0

/-- get_records started on an empty report directory. -/
def get_records (env : CrawlEnv) (fuel : Nat) : RunRes :=
  get_records_from env [] fuel

/-- The record an extraction with a parsable date and the given price
produces, none when the date does not parse. -/
def mkRec (e : String × XlsValue) : Option Record :=
  (strptime e.1).map (fun dt => ⟨dt, e.2, e.1 ++ ".xls"⟩)

/-- The scheduling trace of m sequentially executed page tasks starting at
page count c: launch c, complete c, launch c+1, complete c+1, and so on. -/
def seqTrace : Nat → Nat → List Ev
  | _, 0 => []
  | c, m + 1 => Ev.launch c :: Ev.complete c :: seqTrace (c + 1) m

/-- Event a occurs strictly before event b in the trace. -/
def precedes (tr : List Ev) (a b : Ev) : Prop :=
  ∃ l1 l2 l3, tr = l1 ++ a :: l2 ++ b :: l3

/-- The needle occurs somewhere inside the haystack (substring test on
strings). -/
def containsStr (hay needle : String) : Bool :=
  (List.range (hay.toList.length + 1)).any
    (fun i => needle.toList.isPrefixOf (hay.toList.drop i))

/-! ### Concrete sites used to evaluate the model on closed inputs -/

/-- A site whose single non-empty listing page is page 1. -/
def pagesOne (els : List Element) : Nat → List Element :=
  fun c => if c = 1 then els else []

/-- A well-formed listing element: a matching anchor and a span with the
given date text. -/
def elGood (d : String) : Element :=
  ⟨some ⟨"h", [textToSearch]⟩, some d⟩

/-- A sheet without the market price column: extraction is absent. -/
def sheetAbs : Sheet := ⟨1, [[.str "nope"]]⟩

/-- A sheet whose target cell holds the number zero. -/
def sheetZero : Sheet :=
  ⟨2, [[.str "item", .str targetCol], [.str targetRow, .num 0]]⟩

/-- A sheet whose target cell holds a truthy text value. -/
def sheetGood : Sheet := ⟨1, [[.str targetCol], [.str targetRow]]⟩

/-- A site with one bulletin whose sheet lacks the market price column. -/
def envAbs : CrawlEnv := ⟨pagesOne [elGood "01.01.2021"], fun _ => sheetAbs⟩

/-- A site with one bulletin whose target cell is the number zero. -/
def envZero : CrawlEnv := ⟨pagesOne [elGood "01.01.2021"], fun _ => sheetZero⟩

/-- A site with no matching listing blocks at all. -/
def envEmpty : CrawlEnv := ⟨fun _ => [], fun _ => sheetAbs⟩

/-- A site with one extractable bulletin whose display date does not parse
in the DD.MM.YYYY format. -/
def envBadDate : CrawlEnv := ⟨pagesOne [elGood "not-a-date"], fun _ => sheetGood⟩

/-- A site with one bulletin whose anchor text strictly contains the marker
phrase as a proper substring of its single child string. -/
def envSubstr : CrawlEnv :=
  ⟨pagesOne [⟨some ⟨"h", [textToSearch ++ " за 14.05.2021"]⟩, some "14.05.2021"⟩],
   fun _ => sheetGood⟩

/-- A cold html world: empty cache directory, no fetches yet. -/
def w0 : HtmlWorld := ⟨[], fun _ => "listing", 0⟩

/-! ### Invariants relating the report directory, the extraction log and
the record list -/

/-- The file for date d is on disk and extracting from it gives p. -/
def entryStored (fs : Reports) (d : String) (p : XlsValue) : Prop :=
  ∃ s, fs.lookup (d ++ ".xls") = some s ∧ p = get_market_price s targetRow targetCol

/-- Every extraction logged so far returned a truthy value and its file is
still on disk with that very content; this is the state of a run that has
not (yet) stopped. -/
def Strong (fs : Reports) (l : List (String × XlsValue)) : Prop :=
  ∀ e ∈ l, e.2.isFalsy = false ∧ entryStored fs e.1 e.2

/-- The integrity relation at the end of a run: a logged extraction was
truthy exactly when its file is on disk. -/
def FinalInv (fs : Reports) (l : List (String × XlsValue)) : Prop :=
  ∀ e ∈ l, (e.2.isFalsy = false ↔ (fs.lookup (e.1 ++ ".xls")).isSome = true)

/-- A logged extraction that also produced a record: truthy value and a
parsable date. -/
def GoodEntry (e : String × XlsValue) : Prop :=
  e.2.isFalsy = false ∧ (strptime e.1).isSome = true

/-- Every entry of the list is good. -/
def allGood (l : List (String × XlsValue)) : Prop :=
  ∀ e ∈ l, GoodEntry e

/-- A listing element that cannot raise a markup exception: it has an
anchor, and if the anchor matches the marker phrase the element also has a
span. -/
def wellFormedEl (el : Element) : Prop :=
  ∃ tag, el.anchor = some tag ∧
    (tag.children.contains textToSearch = true → el.spanText.isSome = true)

/-! ## Lemmas -/

/-- A left fold that overwrites its accumulator at every index satisfying p
computes g of the last such index. -/
theorem foldl_lastFilter {α β : Type} (p : α → Bool) (g : α → β) (l : List α) (init : β) :
    l.foldl (fun acc i => if p i then g i else acc) init
      = ((l.filter p).getLast?).elim init g := by
  induction l using List.reverseRecOn with
  | nil => rfl
  | append_singleton l a ih =>
      rw [List.foldl_append, List.filter_append]
      cases hpa : p a with
      | true => simp [hpa, List.getLast?_concat]
      | false => simpa [hpa] using ih

/-- get_market_price selects the last matching column, then the last
matching row, and returns the cell at the intersection; if either search
fails the result is the empty string. -/
theorem get_market_price_eq (s : Sheet) (rowname colname : String) :
    get_market_price s rowname colname =
      match specColIndex s colname, specRowIndex s rowname with
      | some ci, some ri => s.cell_value ri ci
      | some _, none => .str ""
      | none, _ => .str "" := by
  unfold get_market_price specColIndex specRowIndex lastIdxWith
  rw [foldl_lastFilter]
  cases hc : ((List.range s.ncols).filter
      fun i => (s.col_values i).contains (.str colname)).getLast? with
  | none => simp
  | some ci =>
      simp only [Option.elim]
      rw [foldl_lastFilter]
      cases hr : ((List.range s.nrows).filter
          fun i => (s.row_values i).contains (.str rowname)).getLast? with
      | none => simp
      | some ri => simp

/-- Unlinking a file removes it from the directory. -/
theorem lookup_eraseKey_self (fs : Reports) (k : String) :
    (eraseKey fs k).lookup k = none := by
  induction fs with
  | nil => rfl
  | cons e rest ih =>
      by_cases h : e.1 = k
      · simpa [eraseKey, h] using ih
      · have hbk : (k == e.1) = false := by
          simp [beq_eq_false_iff_ne]
          exact fun hk => h hk.symm
        simpa [eraseKey, h, List.lookup, hbk] using ih

/-- Unlinking one file leaves every other file unchanged. -/
theorem lookup_eraseKey_ne (fs : Reports) (k k' : String) (h : k' ≠ k) :
    (eraseKey fs k).lookup k' = fs.lookup k' := by
  have hbk : (k' == k) = false := by simpa [beq_eq_false_iff_ne] using h
  induction fs with
  | nil => rfl
  | cons e rest ih =>
      obtain ⟨k1, v1⟩ := e
      by_cases he : k1 = k
      · subst he
        simpa [eraseKey, List.filter_cons, List.lookup_cons, hbk] using ih
      · by_cases hk' : k' = k1
        · subst hk'
          simp [eraseKey, List.filter_cons, he, List.lookup_cons]
        · have hbk2 : (k' == k1) = false := by simpa [beq_eq_false_iff_ne] using hk'
          simpa [eraseKey, List.filter_cons, he, List.lookup_cons, hbk2] using ih

/-- Appending the fixed xls suffix to a date is injective. -/
theorem xls_key_inj {d d' : String} (h : d ++ ".xls" = d' ++ ".xls") : d = d' := by
  apply String.ext
  have h2 : d.data ++ ".xls".data = d'.data ++ ".xls".data := by
    simpa [String.data_append] using congrArg String.data h
  exact List.append_cancel_right h2

/-- After ensureFile the path holds exactly the returned sheet. -/
theorem ensureFile_lookup (env : CrawlEnv) (fs : Reports) (href path : String) :
    (ensureFile env fs href path).1.lookup path = some (ensureFile env fs href path).2 := by
  unfold ensureFile
  cases h : fs.lookup path with
  | some s => simpa using h
  | none => simp [download_xls, List.lookup]

/-- ensureFile does not disturb any file already on disk. -/
theorem ensureFile_preserve (env : CrawlEnv) (fs : Reports) (href path k : String)
    (h : (fs.lookup k).isSome = true) :
    (ensureFile env fs href path).1.lookup k = fs.lookup k := by
  unfold ensureFile
  cases hfs : fs.lookup path with
  | some s => rfl
  | none =>
      by_cases hk : k = path
      · rw [hk] at h
        rw [hfs] at h
        simp at h
      · have hbk : (k == path) = false := by simpa [beq_eq_false_iff_ne] using hk
        simp [download_xls, List.lookup, hbk]

/-- When the file already exists it is not downloaded again and its stored
content is read. -/
theorem ensureFile_cached (env : CrawlEnv) (fs : Reports) (href path : String)
    (s : Sheet) (h : fs.lookup path = some s) :
    ensureFile env fs href path = (fs, s) := by
  unfold ensureFile
  rw [h]

/-- An element without an anchor raises the markup TypeError. -/
theorem processOne_noAnchor (env : CrawlEnv) (fs : Reports) (sp : Option String) :
    processOne env fs ⟨none, sp⟩ = ⟨fs, none, none, some .markupError⟩ := rfl

/-- An element whose anchor has no direct child equal to the marker phrase
is skipped silently: no effect, no record, no extraction, no exception. -/
theorem processOne_skip (env : CrawlEnv) (fs : Reports) (tag : ATag) (sp : Option String)
    (hm : tag.children.contains textToSearch = false) :
    processOne env fs ⟨some tag, sp⟩ = ⟨fs, none, none, none⟩ := by
  have hm2 : ¬ (textToSearch ∈ tag.children) := by simpa using hm
  simp [processOne, hm2]

/-- A matching element without a span raises the markup AttributeError. -/
theorem processOne_noSpan (env : CrawlEnv) (fs : Reports) (tag : ATag)
    (hm : tag.children.contains textToSearch = true) :
    processOne env fs ⟨some tag, none⟩ = ⟨fs, none, none, some .markupError⟩ := by
  have hm2 : textToSearch ∈ tag.children := by simpa using hm
  simp [processOne, hm2]

/-- Unfolding of processOne on a matching element with a span. -/
theorem processOne_matched (env : CrawlEnv) (fs : Reports) (tag : ATag) (date : String)
    (hm : tag.children.contains textToSearch = true) :
    processOne env fs ⟨some tag, some date⟩ =
      (if (get_market_price (ensureFile env fs tag.href (date ++ ".xls")).2
            targetRow targetCol).isFalsy then
        ⟨eraseKey (ensureFile env fs tag.href (date ++ ".xls")).1 (date ++ ".xls"), none,
          some (date, get_market_price (ensureFile env fs tag.href (date ++ ".xls")).2
            targetRow targetCol), some .valueError⟩
      else
        match strptime date with
        | none =>
            ⟨(ensureFile env fs tag.href (date ++ ".xls")).1, none,
              some (date, get_market_price (ensureFile env fs tag.href (date ++ ".xls")).2
                targetRow targetCol), some .valueError⟩
        | some dt =>
            ⟨(ensureFile env fs tag.href (date ++ ".xls")).1,
              some ⟨dt, get_market_price (ensureFile env fs tag.href (date ++ ".xls")).2
                targetRow targetCol, date ++ ".xls"⟩,
              some (date, get_market_price (ensureFile env fs tag.href (date ++ ".xls")).2
                targetRow targetCol), none⟩) := by
  have hm2 : textToSearch ∈ tag.children := by simpa using hm
  simp [processOne, hm2]

/-- A matching element with a span is always processed up to extraction:
the extraction log records the date and the price read from the ensured
file. -/
theorem processOne_matched_ext (env : CrawlEnv) (fs : Reports) (tag : ATag) (date : String)
    (hm : tag.children.contains textToSearch = true) :
    (processOne env fs ⟨some tag, some date⟩).ext
      = some (date, get_market_price (ensureFile env fs tag.href (date ++ ".xls")).2
          targetRow targetCol) := by
  rw [processOne_matched env fs tag date hm]
  cases hp : (get_market_price (ensureFile env fs tag.href (date ++ ".xls")).2
      targetRow targetCol).isFalsy with
  | true => simp [hp]
  | false =>
      cases hst : strptime date with
      | none => simp [hp, hst]
      | some dt => simp [hp, hst]

/-- An element processed without exception was either silently skipped with
no effect at all, or logged a truthy extraction with a parsable date,
appended the corresponding record, kept its file on disk holding the very
sheet the price was read from, and disturbed no other file. -/
theorem processOne_ok (env : CrawlEnv) (fs : Reports) (el : Element)
    (h : (processOne env fs el).err = none) :
    processOne env fs el = ⟨fs, none, none, none⟩ ∨
    ∃ d p, (processOne env fs el).ext = some (d, p) ∧
      p.isFalsy = false ∧ (strptime d).isSome = true ∧
      (processOne env fs el).record = mkRec (d, p) ∧
      entryStored (processOne env fs el).fs d p ∧
      ∀ k, (fs.lookup k).isSome = true → (processOne env fs el).fs.lookup k = fs.lookup k := by
  obtain ⟨anc, sp⟩ := el
  cases anc with
  | none => rw [processOne_noAnchor] at h; simp at h
  | some tag =>
      cases hm : tag.children.contains textToSearch with
      | false => exact Or.inl (processOne_skip env fs tag sp hm)
      | true =>
          cases sp with
          | none => rw [processOne_noSpan env fs tag hm] at h; simp at h
          | some date =>
              right
              rw [processOne_matched env fs tag date hm] at h ⊢
              cases hp : (get_market_price (ensureFile env fs tag.href (date ++ ".xls")).2
                  targetRow targetCol).isFalsy with
              | true => simp [hp] at h
              | false =>
                  cases hst : strptime date with
                  | none => simp [hp, hst] at h
                  | some dt =>
                      refine ⟨date,
                        get_market_price (ensureFile env fs tag.href (date ++ ".xls")).2
                          targetRow targetCol, ?_, hp, ?_, ?_, ?_, ?_⟩
                      · simp [hp, hst]
                      · simp [hst]
                      · simp [hp, hst, mkRec]
                      · simp only [hp, hst]
                        simp only [Bool.false_eq_true, if_false]
                        exact ⟨(ensureFile env fs tag.href (date ++ ".xls")).2,
                          ensureFile_lookup env fs tag.href (date ++ ".xls"), rfl⟩
                      · intro k hk
                        simp only [hp, hst]
                        simp only [Bool.false_eq_true, if_false]
                        exact ensureFile_preserve env fs tag.href (date ++ ".xls") k hk

/-- An element that raised ValueError produced no record, and its logged
extraction either was falsy, in which case its file was unlinked, other
files survive untouched, and a file that already existed for that date had
exactly this falsy price as content, or was truthy with an unparsable date,
in which case the file stays on disk with the extracted content. -/
theorem processOne_value (env : CrawlEnv) (fs : Reports) (el : Element)
    (h : (processOne env fs el).err = some .valueError) :
    (processOne env fs el).record = none ∧
    ∃ d p, (processOne env fs el).ext = some (d, p) ∧
      ((p.isFalsy = true ∧
          (processOne env fs el).fs.lookup (d ++ ".xls") = none ∧
          (∀ k, (fs.lookup k).isSome = true → k ≠ d ++ ".xls" →
              (processOne env fs el).fs.lookup k = fs.lookup k) ∧
          (∀ s, fs.lookup (d ++ ".xls") = some s →
              p = get_market_price s targetRow targetCol)) ∨
       (p.isFalsy = false ∧ strptime d = none ∧
          entryStored (processOne env fs el).fs d p ∧
          (∀ k, (fs.lookup k).isSome = true →
              (processOne env fs el).fs.lookup k = fs.lookup k))) := by
  obtain ⟨anc, sp⟩ := el
  cases anc with
  | none => rw [processOne_noAnchor] at h; simp at h
  | some tag =>
      cases hm : tag.children.contains textToSearch with
      | false => rw [processOne_skip env fs tag sp hm] at h; simp at h
      | true =>
          cases sp with
          | none => rw [processOne_noSpan env fs tag hm] at h; simp at h
          | some date =>
              rw [processOne_matched env fs tag date hm] at h ⊢
              cases hp : (get_market_price (ensureFile env fs tag.href (date ++ ".xls")).2
                  targetRow targetCol).isFalsy with
              | true =>
                  constructor
                  · simp [hp]
                  refine ⟨date,
                    get_market_price (ensureFile env fs tag.href (date ++ ".xls")).2
                      targetRow targetCol, ?_, Or.inl ⟨hp, ?_, ?_, ?_⟩⟩
                  · simp [hp]
                  · simp only [hp, if_true]
                    exact lookup_eraseKey_self _ _
                  · intro k hk hne
                    simp only [hp, if_true]
                    rw [lookup_eraseKey_ne _ _ _ hne]
                    exact ensureFile_preserve env fs tag.href (date ++ ".xls") k hk
                  · intro s hs
                    rw [ensureFile_cached env fs tag.href (date ++ ".xls") s hs]
              | false =>
                  cases hst : strptime date with
                  | some dt => simp [hp, hst] at h
                  | none =>
                      constructor
                      · simp [hp, hst]
                      refine ⟨date,
                        get_market_price (ensureFile env fs tag.href (date ++ ".xls")).2
                          targetRow targetCol, ?_, Or.inr ⟨hp, hst, ?_, ?_⟩⟩
                      · simp [hp, hst]
                      · simp only [hp, hst]
                        simp only [Bool.false_eq_true, if_false]
                        exact ⟨(ensureFile env fs tag.href (date ++ ".xls")).2,
                          ensureFile_lookup env fs tag.href (date ++ ".xls"), rfl⟩
                      · intro k hk
                        simp only [hp, hst]
                        simp only [Bool.false_eq_true, if_false]
                        exact ensureFile_preserve env fs tag.href (date ++ ".xls") k hk

/-- An element that raised a markup exception did so before touching the
directory, the record list or the extraction log. -/
theorem processOne_markup (env : CrawlEnv) (fs : Reports) (el : Element)
    (h : (processOne env fs el).err = some .markupError) :
    processOne env fs el = ⟨fs, none, none, some .markupError⟩ := by
  obtain ⟨anc, sp⟩ := el
  cases anc with
  | none => exact processOne_noAnchor env fs sp
  | some tag =>
      cases hm : tag.children.contains textToSearch with
      | false => rw [processOne_skip env fs tag sp hm] at h; simp at h
      | true =>
          cases sp with
          | none => exact processOne_noSpan env fs tag hm
          | some date =>
              rw [processOne_matched env fs tag date hm] at h
              cases hp : (get_market_price (ensureFile env fs tag.href (date ++ ".xls")).2
                  targetRow targetCol).isFalsy with
              | true => simp [hp] at h
              | false =>
                  cases hst : strptime date with
                  | none => simp [hp, hst] at h
                  | some dt => simp [hp, hst] at h

/-- The empty log trivially satisfies the running invariant. -/
theorem Strong_nil (fs : Reports) : Strong fs [] :=
  fun e he => absurd he (List.not_mem_nil e)

/-- The running invariant implies the integrity relation. -/
theorem Strong_final {fs : Reports} {l : List (String × XlsValue)}
    (h : Strong fs l) : FinalInv fs l := by
  intro e he
  obtain ⟨hf, s, hs, _⟩ := h e he
  constructor
  · intro _
    rw [hs]
    rfl
  · intro _
    exact hf

/-- The running invariant survives any directory change that preserves the
files already present. -/
theorem Strong_mono {fs fs' : Reports} {l : List (String × XlsValue)}
    (h : Strong fs l)
    (hp : ∀ k, (fs.lookup k).isSome = true → fs'.lookup k = fs.lookup k) :
    Strong fs' l := by
  intro e he
  obtain ⟨hf, s, hs, hgmp⟩ := h e he
  refine ⟨hf, s, ?_, hgmp⟩
  rw [hp _ (by rw [hs]; rfl), hs]

/-- The running invariant extends by one truthy stored entry. -/
theorem Strong_snoc {fs : Reports} {l : List (String × XlsValue)}
    {d : String} {p : XlsValue}
    (h : Strong fs l) (hf : p.isFalsy = false) (hst : entryStored fs d p) :
    Strong fs (l ++ [(d, p)]) := by
  intro e he
  rcases List.mem_append.1 he with h1 | h1
  · exact h e h1
  · rw [List.mem_singleton.1 h1]
    exact ⟨hf, hst⟩

/-- Unfolding of processList on the empty page. -/
theorem processList_nil (env : CrawlEnv) (fs : Reports) :
    processList env fs [] = ⟨fs, [], [], none⟩ := rfl

/-- Unfolding of processList on a non-empty page. -/
theorem processList_cons (env : CrawlEnv) (fs : Reports) (el : Element) (rest : List Element) :
    processList env fs (el :: rest) =
      (match (processOne env fs el).err with
       | some e =>
           ⟨(processOne env fs el).fs, (processOne env fs el).record.toList,
             (processOne env fs el).ext.toList, some e⟩
       | none =>
           ⟨(processList env (processOne env fs el).fs rest).fs,
             (processOne env fs el).record.toList
               ++ (processList env (processOne env fs el).fs rest).recs,
             (processOne env fs el).ext.toList
               ++ (processList env (processOne env fs el).fs rest).exts,
             (processList env (processOne env fs el).fs rest).err⟩) := rfl

/-- Postcondition of one page task.  The extraction log of the page splits
into a good prefix (truthy extractions with parsable dates, in bijection
with the records appended) and the logged extraction of the exceptional
element, if any; the integrity relation holds on everything logged; without
exception, or under a markup exception, the running invariant is
maintained; under ValueError the last logged extraction either was falsy
and its file is gone, or had an unparsable date. -/
theorem processList_post (env : CrawlEnv) (els : List Element) :
    ∀ (fs : Reports) (l0 : List (String × XlsValue)), Strong fs l0 →
    ∃ good tail,
      (processList env fs els).exts = good ++ tail ∧
      allGood good ∧
      (processList env fs els).recs = good.filterMap mkRec ∧
      FinalInv (processList env fs els).fs (l0 ++ (processList env fs els).exts) ∧
      ((processList env fs els).err = none →
        tail = [] ∧ Strong (processList env fs els).fs (l0 ++ good)) ∧
      ((processList env fs els).err = some .markupError →
        tail = [] ∧ Strong (processList env fs els).fs (l0 ++ good)) ∧
      ((processList env fs els).err = some .valueError →
        ∃ d p, tail = [(d, p)] ∧
          (p.isFalsy = true → (processList env fs els).fs.lookup (d ++ ".xls") = none) ∧
          (p.isFalsy = false → strptime d = none)) := by
  induction els with
  | nil =>
      intro fs l0 hS
      refine ⟨[], [], by simp [processList_nil], ?_, by simp [processList_nil], ?_, ?_, ?_, ?_⟩
      · intro e he
        simp at he
      · simpa [processList_nil] using Strong_final hS
      · intro _
        exact ⟨rfl, by simpa [processList_nil] using hS⟩
      · intro hcontra
        simp [processList_nil] at hcontra
      · intro hcontra
        simp [processList_nil] at hcontra
  | cons el rest ih =>
      intro fs l0 hS
      cases herr : (processOne env fs el).err with
      | none =>
          rcases processOne_ok env fs el herr with heq | ⟨d, p, hext, hpf, hsts, hrec, hstored, hpres⟩
          · -- skipped element: the page behaves as its remaining elements
            rw [processList_cons]
            rw [heq]
            simpa using ih fs l0 hS
          · -- processed element: extend the log by the good entry (d, p)
            have hS1 : Strong (processOne env fs el).fs (l0 ++ [(d, p)]) :=
              Strong_snoc (Strong_mono hS hpres) hpf hstored
            obtain ⟨good', tail', hsplit, hgood, hrecs, hfin, hnone, hmark, hval⟩ :=
              ih (processOne env fs el).fs (l0 ++ [(d, p)]) hS1
            obtain ⟨dt, hdt⟩ := Option.isSome_iff_exists.1 hsts
            have hmk : mkRec (d, p) = some ⟨dt, p, d ++ ".xls"⟩ := by
              simp [mkRec, hdt]
            refine ⟨(d, p) :: good', tail', ?_, ?_, ?_, ?_, ?_, ?_, ?_⟩
            · rw [processList_cons, herr]
              simp [hext, hsplit]
            · intro e he
              rcases List.mem_cons.1 he with h1 | h1
              · rw [h1]
                exact ⟨hpf, hsts⟩
              · exact hgood e h1
            · rw [processList_cons, herr]
              simp [hrec, hmk, hrecs, List.filterMap_cons, hext]
            · rw [processList_cons, herr]
              have := hfin
              simp only [List.append_assoc] at this
              simpa [hext] using this
            · intro hc
              rw [processList_cons, herr] at hc
              simp at hc
              obtain ⟨ht, hstr⟩ := hnone hc
              refine ⟨ht, ?_⟩
              rw [processList_cons, herr]
              have := hstr
              simp only [List.append_assoc] at this
              simpa using this
            · intro hc
              rw [processList_cons, herr] at hc
              simp at hc
              obtain ⟨ht, hstr⟩ := hmark hc
              refine ⟨ht, ?_⟩
              rw [processList_cons, herr]
              have := hstr
              simp only [List.append_assoc] at this
              simpa using this
            · intro hc
              rw [processList_cons, herr] at hc
              simp at hc
              obtain ⟨d2, p2, ht, h1, h2⟩ := hval hc
              refine ⟨d2, p2, ht, ?_, h2⟩
              intro hf
              rw [processList_cons, herr]
              simpa using h1 hf
      | some e =>
          cases e with
          | markupError =>
              have heq := processOne_markup env fs el herr
              rw [processList_cons, herr, heq]
              refine ⟨[], [], by simp, ?_, by simp, ?_, ?_, ?_, ?_⟩
              · intro e he
                simp at he
              · simpa using Strong_final hS
              · intro hc
                simp at hc
              · intro _
                exact ⟨rfl, by simpa using hS⟩
              · intro hc
                simp at hc
          | valueError =>
              obtain ⟨hrecnone, d, p, hext, hcases⟩ := processOne_value env fs el herr
              rw [processList_cons, herr]
              refine ⟨[], [(d, p)], by simp [hext], ?_, by simp [hrecnone], ?_, ?_, ?_, ?_⟩
              · intro e he
                simp at he
              · -- integrity of everything logged at the stop
                intro e he
                simp only [hext, Option.toList_some, List.append_nil] at he
                rcases List.mem_append.1 he with h1 | h1
                · -- an entry logged before this page task
                  obtain ⟨hf, s, hs, hgmp⟩ := hS e h1
                  rcases hcases with ⟨hpf, _hnone, hpres, hcontent⟩ | ⟨hpf, _hst, hstored, hpres⟩
                  · -- the stop was a falsy extraction: its date is fresh
                    have hne : e.1 ≠ d := by
                      intro hed
                      have : p = get_market_price s targetRow targetCol := by
                        apply hcontent
                        rw [← hed]
                        exact hs
                      rw [← hgmp] at this
                      rw [this] at hpf
                      rw [hpf] at hf
                      exact Bool.true_eq_false.mp hf
                    have hkey : e.1 ++ ".xls" ≠ d ++ ".xls" := fun hk => hne (xls_key_inj hk)
                    have hl : (processOne env fs el).fs.lookup (e.1 ++ ".xls") = some s := by
                      rw [hpres (e.1 ++ ".xls") (by rw [hs]; rfl) hkey, hs]
                    constructor
                    · intro _
                      rw [hl]
                      rfl
                    · intro _
                      exact hf
                  · -- the stop was an unparsable date: all files survive
                    have hl : (processOne env fs el).fs.lookup (e.1 ++ ".xls") = some s := by
                      rw [hpres (e.1 ++ ".xls") (by rw [hs]; rfl), hs]
                    constructor
                    · intro _
                      rw [hl]
                      rfl
                    · intro _
                      exact hf
                · -- the extraction of the exceptional element itself
                  rw [List.mem_singleton.1 h1]
                  rcases hcases with ⟨hpf, hnone, _, _⟩ | ⟨hpf, _hst, hstored, _⟩
                  · constructor
                    · intro hcontra
                      rw [hpf] at hcontra
                      exact absurd hcontra (by simp)
                    · intro hcontra
                      rw [hnone] at hcontra
                      simp at hcontra
                  · obtain ⟨s, hs, _⟩ := hstored
                    constructor
                    · intro _
                      rw [hs]
                      rfl
                    · intro _
                      exact hpf
              · intro hc
                simp at hc
              · intro hc
                simp at hc
              · intro _
                refine ⟨d, p, rfl, ?_, ?_⟩
                · intro hf
                  rcases hcases with ⟨_, hnone, _, _⟩ | ⟨hpf, _, _, _⟩
                  · exact hnone
                  · rw [hf] at hpf
                    exact absurd hpf (by simp)
                · intro hnf
                  rcases hcases with ⟨hpf, _, _, _⟩ | ⟨_, hst, _, _⟩
                  · rw [hnf] at hpf
                    exact absurd hpf (by simp)
                  · exact hst

/-- Good entries survive list concatenation. -/
theorem allGood_append {l1 l2 : List (String × XlsValue)}
    (h1 : allGood l1) (h2 : allGood l2) : allGood (l1 ++ l2) := by
  intro e he
  rcases List.mem_append.1 he with h | h
  · exact h1 e h
  · exact h2 e h

/-- Unfolding of crawlLoop with no fuel. -/
theorem crawlLoop_zero (env : CrawlEnv) (count : Nat) (fs : Reports) :
    crawlLoop env 0 count fs = ⟨fs, [], [], [], .fuelOut⟩ := rfl

/-- Unfolding of one crawlLoop iteration (download_and_analyze_report is
unfolded to processList over the elements of the page). -/
theorem crawlLoop_succ (env : CrawlEnv) (fuel count : Nat) (fs : Reports) :
    crawlLoop env (fuel + 1) count fs =
      (match (processList env fs (env.pages count)).err with
       | none =>
           ⟨(crawlLoop env fuel (count + 1) (processList env fs (env.pages count)).fs).fs,
             (processList env fs (env.pages count)).recs
               ++ (crawlLoop env fuel (count + 1)
                     (processList env fs (env.pages count)).fs).records,
             (processList env fs (env.pages count)).exts
               ++ (crawlLoop env fuel (count + 1)
                     (processList env fs (env.pages count)).fs).exts,
             Ev.launch count :: Ev.complete count
               :: (crawlLoop env fuel (count + 1)
                     (processList env fs (env.pages count)).fs).trace,
             (crawlLoop env fuel (count + 1)
               (processList env fs (env.pages count)).fs).outcome⟩
       | some .valueError =>
           ⟨(processList env fs (env.pages count)).fs,
             (processList env fs (env.pages count)).recs,
             (processList env fs (env.pages count)).exts,
             [Ev.launch count, Ev.complete count], .stopped⟩
       | some .markupError =>
           ⟨(processList env fs (env.pages count)).fs,
             (processList env fs (env.pages count)).recs,
             (processList env fs (env.pages count)).exts,
             [Ev.launch count, Ev.complete count], .markupAbort⟩) := rfl

/-- Postcondition of the whole crawl loop, by induction over the fuel: the
accumulated extraction log splits into a good prefix matching the record
list and the logged extraction of the stopping element, if any; the
integrity relation holds on everything logged; a run that merely ran out of
fuel keeps the running invariant; a stopped run ends with a falsy
extraction whose file is gone, or with an unparsable date. -/
theorem crawlLoop_post (env : CrawlEnv) :
    ∀ (fuel count : Nat) (fs : Reports) (l0 : List (String × XlsValue)), Strong fs l0 →
    ∃ good tail,
      (crawlLoop env fuel count fs).exts = good ++ tail ∧
      allGood good ∧
      (crawlLoop env fuel count fs).records = good.filterMap mkRec ∧
      FinalInv (crawlLoop env fuel count fs).fs (l0 ++ (crawlLoop env fuel count fs).exts) ∧
      ((crawlLoop env fuel count fs).outcome = .fuelOut →
        tail = [] ∧ Strong (crawlLoop env fuel count fs).fs (l0 ++ good)) ∧
      ((crawlLoop env fuel count fs).outcome = .markupAbort → tail = []) ∧
      ((crawlLoop env fuel count fs).outcome = .stopped →
        ∃ d p, tail = [(d, p)] ∧
          (p.isFalsy = true →
            (crawlLoop env fuel count fs).fs.lookup (d ++ ".xls") = none) ∧
          (p.isFalsy = false → strptime d = none)) := by
  intro fuel
  induction fuel with
  | zero =>
      intro count fs l0 hS
      refine ⟨[], [], by simp [crawlLoop_zero], ?_, by simp [crawlLoop_zero], ?_, ?_, ?_, ?_⟩
      · intro e he
        simp at he
      · simpa [crawlLoop_zero] using Strong_final hS
      · intro _
        exact ⟨rfl, by simpa [crawlLoop_zero] using hS⟩
      · intro hc
        simp [crawlLoop_zero] at hc
      · intro hc
        simp [crawlLoop_zero] at hc
  | succ fuel ih =>
      intro count fs l0 hS
      obtain ⟨goodL, tailL, hsplit, hgoodL, hrecsL, hfinL, hnoneL, hmarkL, hvalL⟩ :=
        processList_post env (env.pages count) fs l0 hS
      cases hLerr : (processList env fs (env.pages count)).err with
      | none =>
          obtain ⟨htailL, hstrongL⟩ := hnoneL hLerr
          subst htailL
          rw [List.append_nil] at hsplit
          obtain ⟨good', tail', hsplit2, hgood2, hrecs2, hfin2, hfuel2, hmark2, hstop2⟩ :=
            ih (count + 1) (processList env fs (env.pages count)).fs (l0 ++ goodL) hstrongL
          refine ⟨goodL ++ good', tail', ?_, allGood_append hgoodL hgood2, ?_, ?_, ?_, ?_, ?_⟩
          · rw [crawlLoop_succ, hLerr]
            simp [hsplit, hsplit2]
          · rw [crawlLoop_succ, hLerr]
            simp [hrecsL, hrecs2, List.filterMap_append]
          · rw [crawlLoop_succ, hLerr]
            have := hfin2
            simp only [List.append_assoc] at this ⊢
            simpa [hsplit] using this
          · intro hc
            rw [crawlLoop_succ, hLerr] at hc
            simp at hc
            obtain ⟨ht, hstr⟩ := hfuel2 hc
            refine ⟨ht, ?_⟩
            rw [crawlLoop_succ, hLerr]
            have := hstr
            simp only [List.append_assoc] at this ⊢
            simpa using this
          · intro hc
            rw [crawlLoop_succ, hLerr] at hc
            simp at hc
            exact hmark2 hc
          · intro hc
            rw [crawlLoop_succ, hLerr] at hc
            simp at hc
            obtain ⟨d, p, ht, h1, h2⟩ := hstop2 hc
            refine ⟨d, p, ht, ?_, h2⟩
            intro hf
            rw [crawlLoop_succ, hLerr]
            simpa using h1 hf
      | some e =>
          cases e with
          | valueError =>
              obtain ⟨d, p, htailL, h1, h2⟩ := hvalL hLerr
              subst htailL
              refine ⟨goodL, [(d, p)], ?_, hgoodL, ?_, ?_, ?_, ?_, ?_⟩
              · rw [crawlLoop_succ, hLerr]
                exact hsplit
              · rw [crawlLoop_succ, hLerr]
                exact hrecsL
              · rw [crawlLoop_succ, hLerr]
                exact hfinL
              · intro hc
                rw [crawlLoop_succ, hLerr] at hc
                simp at hc
              · intro hc
                rw [crawlLoop_succ, hLerr] at hc
                simp at hc
              · intro _
                refine ⟨d, p, rfl, ?_, h2⟩
                intro hf
                rw [crawlLoop_succ, hLerr]
                exact h1 hf
          | markupError =>
              obtain ⟨htailL, _⟩ := hmarkL hLerr
              subst htailL
              rw [List.append_nil] at hsplit
              refine ⟨goodL, [], ?_, hgoodL, ?_, ?_, ?_, ?_, ?_⟩
              · rw [crawlLoop_succ, hLerr]
                simpa using hsplit
              · rw [crawlLoop_succ, hLerr]
                exact hrecsL
              · rw [crawlLoop_succ, hLerr]
                exact hfinL
              · intro hc
                rw [crawlLoop_succ, hLerr] at hc
                simp at hc
              · intro _
                exact rfl
              · intro hc
                rw [crawlLoop_succ, hLerr] at hc
                simp at hc

/-- Once the loop has broken or aborted, supplying more fuel changes
nothing: no further page task is ever launched. -/
theorem crawlLoop_stable (env : CrawlEnv) :
    ∀ (fuel count : Nat) (fs : Reports),
      (crawlLoop env fuel count fs).outcome ≠ .fuelOut →
      ∀ k, crawlLoop env (fuel + k) count fs = crawlLoop env fuel count fs := by
  intro fuel
  induction fuel with
  | zero =>
      intro count fs h k
      rw [crawlLoop_zero] at h
      simp at h
  | succ fuel ih =>
      intro count fs h k
      have harith : fuel + 1 + k = fuel + k + 1 := by omega
      rw [harith]
      cases hLerr : (processList env fs (env.pages count)).err with
      | none =>
          have h2 : (crawlLoop env fuel (count + 1)
              (processList env fs (env.pages count)).fs).outcome ≠ .fuelOut := by
            rw [crawlLoop_succ, hLerr] at h
            simpa using h
          rw [crawlLoop_succ, hLerr, crawlLoop_succ, hLerr, ih (count + 1) _ h2 k]
      | some e =>
          cases e with
          | valueError => rw [crawlLoop_succ, hLerr, crawlLoop_succ, hLerr]
          | markupError => rw [crawlLoop_succ, hLerr, crawlLoop_succ, hLerr]

/-- The trace of any run is the strictly sequential trace of some number of
page tasks, each completing before the next is launched. -/
theorem crawlLoop_trace (env : CrawlEnv) :
    ∀ (fuel count : Nat) (fs : Reports),
      ∃ m, m ≤ fuel ∧ (crawlLoop env fuel count fs).trace = seqTrace count m := by
  intro fuel
  induction fuel with
  | zero =>
      intro count fs
      exact ⟨0, Nat.le_refl 0, rfl⟩
  | succ fuel ih =>
      intro count fs
      cases hLerr : (processList env fs (env.pages count)).err with
      | none =>
          obtain ⟨m, hm, htr⟩ := ih (count + 1) (processList env fs (env.pages count)).fs
          refine ⟨m + 1, by omega, ?_⟩
          rw [crawlLoop_succ, hLerr]
          simp [seqTrace, htr]
      | some e =>
          refine ⟨1, by omega, ?_⟩
          cases e with
          | valueError =>
              rw [crawlLoop_succ, hLerr]
              simp [seqTrace]
          | markupError =>
              rw [crawlLoop_succ, hLerr]
              simp [seqTrace]

/-- Membership of a launch event in a sequential trace. -/
theorem launch_mem_seqTrace : ∀ (m c j : Nat),
    Ev.launch j ∈ seqTrace c m ↔ (c ≤ j ∧ j < c + m) := by
  intro m
  induction m with
  | zero =>
      intro c j
      simp only [seqTrace, List.not_mem_nil, false_iff]
      omega
  | succ m ih =>
      intro c j
      simp only [seqTrace, List.mem_cons, ih (c + 1)]
      constructor
      · intro h
        rcases h with h | h | h
        · exact ⟨Nat.le_of_eq (Ev.launch.inj h).symm, by
            have := (Ev.launch.inj h)
            omega⟩
        · exact absurd h (by simp)
        · omega
      · intro h
        by_cases hj : j = c
        · exact Or.inl (by rw [hj])
        · exact Or.inr (Or.inr (by omega))

/-- An occurrence order is preserved when events are prepended. -/
theorem precedes_cons {tr : List Ev} {a b : Ev} (x : Ev) (h : precedes tr a b) :
    precedes (x :: tr) a b := by
  obtain ⟨l1, l2, l3, h⟩ := h
  exact ⟨x :: l1, l2, l3, by rw [h]; rfl⟩

/-- In a sequential trace, the completion of an earlier page precedes the
launch of any later page. -/
theorem seq_precedes : ∀ (m c i j : Nat), c ≤ i → i < j → j < c + m →
    precedes (seqTrace c m) (Ev.complete i) (Ev.launch j) := by
  intro m
  induction m with
  | zero =>
      intro c i j h1 h2 h3
      exact absurd h3 (by omega)
  | succ m ih =>
      intro c i j h1 h2 h3
      by_cases hic : i = c
      · subst hic
        have hj : Ev.launch j ∈ seqTrace (i + 1) m :=
          (launch_mem_seqTrace m (i + 1) j).2 ⟨by omega, by omega⟩
        obtain ⟨s, t, hst⟩ := List.append_of_mem hj
        refine ⟨[Ev.launch i], s, t, ?_⟩
        simp [seqTrace, hst]
      · have := ih (c + 1) i j (by omega) h2 (by omega)
        exact precedes_cons _ (precedes_cons _ this)

/-- A well-formed element never raises a markup exception. -/
theorem processOne_wf_no_markup (env : CrawlEnv) (fs : Reports) (el : Element)
    (hw : wellFormedEl el) : (processOne env fs el).err ≠ some .markupError := by
  obtain ⟨tag, htag, hspan⟩ := hw
  obtain ⟨anc, sp⟩ := el
  simp only at htag
  subst htag
  cases hm : tag.children.contains textToSearch with
  | false =>
      rw [processOne_skip env fs tag sp hm]
      simp
  | true =>
      have hsp := hspan hm
      cases sp with
      | none => simp at hsp
      | some date =>
          rw [processOne_matched env fs tag date hm]
          cases hp : (get_market_price (ensureFile env fs tag.href (date ++ ".xls")).2
              targetRow targetCol).isFalsy with
          | true => simp [hp]
          | false =>
              cases hst : strptime date with
              | none => simp [hp, hst]
              | some dt => simp [hp, hst]

/-- A page of well-formed elements never raises a markup exception. -/
theorem processList_no_markup (env : CrawlEnv) (els : List Element)
    (hw : ∀ el ∈ els, wellFormedEl el) :
    ∀ fs : Reports, (processList env fs els).err ≠ some .markupError := by
  induction els with
  | nil =>
      intro fs
      rw [processList_nil]
      simp
  | cons el rest ih =>
      intro fs
      cases herr : (processOne env fs el).err with
      | none =>
          rw [processList_cons, herr]
          exact ih (fun e he => hw e (List.mem_cons_of_mem el he)) (processOne env fs el).fs
      | some e =>
          cases e with
          | valueError =>
              rw [processList_cons, herr]
              simp
          | markupError =>
              exact absurd herr (processOne_wf_no_markup env fs el (hw el (List.mem_cons_self el rest)))

/-- With well-formed pages, truthy extractions and parsable dates
throughout, the loop never stops: it runs its whole fuel and launches every
page task in sequence. -/
theorem crawlLoop_noStop (env : CrawlEnv)
    (hw : ∀ c el, el ∈ env.pages c → wellFormedEl el) :
    ∀ (fuel count : Nat) (fs : Reports),
      (∀ e ∈ (crawlLoop env fuel count fs).exts,
          e.2.isFalsy = false ∧ (strptime e.1).isSome = true) →
      (crawlLoop env fuel count fs).outcome = .fuelOut ∧
      (crawlLoop env fuel count fs).trace = seqTrace count fuel := by
  intro fuel
  induction fuel with
  | zero =>
      intro count fs _
      exact ⟨rfl, rfl⟩
  | succ fuel ih =>
      intro count fs hext
      cases hLerr : (processList env fs (env.pages count)).err with
      | none =>
          have hext2 : ∀ e ∈ (crawlLoop env fuel (count + 1)
              (processList env fs (env.pages count)).fs).exts,
              e.2.isFalsy = false ∧ (strptime e.1).isSome = true := by
            intro e he
            apply hext
            rw [crawlLoop_succ, hLerr]
            simp
            right
            exact he
          obtain ⟨ho, htr⟩ := ih (count + 1) (processList env fs (env.pages count)).fs hext2
          constructor
          · rw [crawlLoop_succ, hLerr]
            simpa using ho
          · rw [crawlLoop_succ, hLerr]
            simp [seqTrace, htr]
      | some e =>
          cases e with
          | markupError =>
              exact absurd hLerr (processList_no_markup env (env.pages count) (hw count) fs)
          | valueError =>
              obtain ⟨goodL, tailL, hsplit, hgoodL, _, _, _, _, hvalL⟩ :=
                processList_post env (env.pages count) fs [] (Strong_nil fs)
              obtain ⟨d, p, htailL, h1, h2⟩ := hvalL hLerr
              have hmem : (d, p) ∈ (crawlLoop env (fuel + 1) count fs).exts := by
                rw [crawlLoop_succ, hLerr]
                rw [hsplit, htailL]
                simp
              obtain ⟨hpf, hpst⟩ := hext (d, p) hmem
              cases hp : p.isFalsy with
              | true =>
                  rw [hp] at hpf
                  exact absurd hpf (by simp)
              | false =>
                  rw [h2 hp] at hpst
                  simp at hpst

/-! ## Claim theorems -/

/-- C5, counterexample: on the sheet of the claimed example as literally
laid out — header row with column labels A, Рыночная, B, and a data row x,
A592UFM060F, 42.5 — extractValue returns A592UFM060F, the cell in the
Рыночная column of the matching row, and not 42.5. -/
theorem C5_extract_example_cex :
    get_market_price exampleSheet "A592UFM060F" "Рыночная" = .str "A592UFM060F" ∧
    XlsValue.str "A592UFM060F" ≠ .str "42.5" := by
  constructor
  · decide
  · decide

/-- C5, amended: extractValue scans all columns without short-circuiting,
selects the last column whose values contain the column label exactly; if
one is found it scans all rows, selects the last row whose values contain
the row label exactly, and returns the cell at the intersection (the empty
string when either search fails); on the example sheet this yields
A592UFM060F, the value sitting in the Рыночная column of the matching row. -/
theorem C5_extract_algorithm :
    (∀ (s : Sheet) (rowname colname : String),
      get_market_price s rowname colname =
        match specColIndex s colname, specRowIndex s rowname with
        | some ci, some ri => s.cell_value ri ci
        | some _, none => .str ""
        | none, _ => .str "") ∧
    get_market_price exampleSheet "A592UFM060F" "Рыночная" = .str "A592UFM060F" :=
  ⟨get_market_price_eq, by decide⟩

/-- C6: extractValue yields the absent result (the empty string) exactly
when no column of the sheet contains the column label, or no row contains
the row label, or the cell at the selected intersection is empty; in all
other cases it yields the value of the cell at the intersection. -/
theorem C6_absent_conditions :
    ∀ (s : Sheet) (rowname colname : String),
      (get_market_price s rowname colname = .str "" ↔
        (specColIndex s colname = none ∨ specRowIndex s rowname = none ∨
          ∃ ci ri, specColIndex s colname = some ci ∧ specRowIndex s rowname = some ri ∧
            s.cell_value ri ci = .str "")) ∧
      (∀ ci ri, specColIndex s colname = some ci → specRowIndex s rowname = some ri →
        get_market_price s rowname colname = s.cell_value ri ci) := by
  intro s rowname colname
  constructor
  · rw [get_market_price_eq]
    cases hc : specColIndex s colname with
    | none => simp
    | some ci =>
        cases hr : specRowIndex s rowname with
        | none => simp
        | some ri => simp
  · intro ci ri hc hr
    rw [get_market_price_eq, hc, hr]

/-- C6, witness: on the example sheet both searches succeed at index 1 and
extractValue returns the cell at the intersection. -/
theorem C6_absent_conditions_witness :
    get_market_price exampleSheet "A592UFM060F" "Рыночная" = exampleSheet.cell_value 1 1 :=
  (C6_absent_conditions exampleSheet "A592UFM060F" "Рыночная").2 1 1 (by decide) (by decide)

/-- C4: after any request the page content sits in the cache file of its
index; an immediately repeated request returns identical content and
changes nothing (no fetch, no write); a request with a cold cache performs
exactly one fetch and returns the network content; a request with a warm
cache is a pure local read returning the cached content. -/
theorem C4_page_cache_idempotent :
    ∀ (w : HtmlWorld) (n : Nat),
      (get_html_page w n).1.cacheFiles.lookup n = some (get_html_page w n).2 ∧
      get_html_page (get_html_page w n).1 n = ((get_html_page w n).1, (get_html_page w n).2) ∧
      (w.cacheFiles.lookup n = none →
        (get_html_page w n).1.fetches = w.fetches + 1 ∧ (get_html_page w n).2 = w.net n) ∧
      (∀ c, w.cacheFiles.lookup n = some c → get_html_page w n = (w, c)) := by
  intro w n
  cases h : w.cacheFiles.lookup n with
  | some c =>
      have he : get_html_page w n = (w, c) := by
        unfold get_html_page
        rw [h]
      rw [he]
      refine ⟨h, he, ?_, ?_⟩
      · intro hc
        simp at hc
      · intro c2 hc2
        rw [Option.some_inj.1 hc2]
  | none =>
      have he : get_html_page w n =
          (⟨(n, w.net n) :: w.cacheFiles, w.net, w.fetches + 1⟩, w.net n) := by
        unfold get_html_page
        rw [h]
      rw [he]
      refine ⟨by simp, ?_, fun _ => ⟨rfl, rfl⟩, ?_⟩
      · unfold get_html_page
        simp
      · intro c hc
        simp at hc

/-- C4, witness: on a cold cache, requesting page 1 performs one fetch and
returns the network content. -/
theorem C4_page_cache_idempotent_witness :
    (get_html_page w0 1).1.fetches = w0.fetches + 1 ∧ (get_html_page w0 1).2 = w0.net 1 :=
  (C4_page_cache_idempotent w0 1).2.2.1 rfl

/-- C3, counterexample: with five operations already in flight, a single
shared five-slot bound as the specification describes it is exhausted and
would block a sixth acquisition, but the acquisition the code actually
performs — from a semaphore freshly created inside the call — still
succeeds, so a sixth connection opens: the bound is not shared and enforces
nothing across operations. -/
theorem C3_shared_bound_cex :
    codeOpAcquire 5 = some 4 ∧ sharedAfter 5 = some 0 ∧ sharedAfter 6 = none := by
  refine ⟨?_, ?_, ?_⟩
  · decide
  · decide
  · decide

/-- C3, amended: every network operation creates a fresh five-slot
semaphore inside the call and acquires a slot from it, which succeeds
whatever the number of operations already in flight — any number of
operations can hold slots simultaneously — whereas under the shared bound
described by the specification at most five can. -/
theorem C3_semaphore_per_call :
    ∀ k : Nat, codeAllAcquire k = true ∧ sharedAllAcquire k = decide (k ≤ 5) := by
  have hsh : ∀ k, sharedAfter k = if k ≤ 5 then some (5 - k) else none := by
    intro k
    induction k with
    | zero => simp [sharedAfter, mkBoundedSemaphore]
    | succ k ih =>
        rw [show sharedAfter (k + 1) = (sharedAfter k).bind sharedOpAcquire from rfl, ih]
        by_cases h : k ≤ 5
        · rw [if_pos h]
          by_cases h2 : k + 1 ≤ 5
          · rw [if_pos h2]
            have hpos : 0 < 5 - k := by omega
            have harith : 5 - k - 1 = 5 - (k + 1) := by omega
            simp [sharedOpAcquire, tryAcquire, hpos, harith]
          · have hk5 : k = 5 := by omega
            subst hk5
            rw [if_neg h2]
            simp [sharedOpAcquire, tryAcquire]
        · rw [if_neg h, if_neg (by omega)]
          rfl
  intro k
  constructor
  · apply List.all_eq_true.2
    intro i _
    simp [codeOpAcquire, tryAcquire, mkBoundedSemaphore]
  · rw [sharedAllAcquire, hsh k]
    by_cases h : k ≤ 5
    · simp [h]
    · simp [h]

/-- C1: as soon as extraction for a processed entry yields the absent
result (the empty string), the run stops gracefully through the caught
ValueError — not through an uncaught exception — the spreadsheet file of
that entry is gone from the report directory, the returned records are
exactly those of the truthy extractions accumulated before it, and no
further page task is ever launched: giving the loop any amount of extra
fuel changes nothing. -/
theorem C1_termination_protocol :
    ∀ (env : CrawlEnv) (fuel : Nat) (d : String),
      (d, XlsValue.str "") ∈ (get_records env fuel).exts →
      (get_records env fuel).outcome = .stopped ∧
      (get_records env fuel).fs.lookup (d ++ ".xls") = none ∧
      (∃ good, (get_records env fuel).exts = good ++ [(d, XlsValue.str "")] ∧
        allGood good ∧ (get_records env fuel).records = good.filterMap mkRec) ∧
      (∀ k, get_records env (fuel + k) = get_records env fuel) := by
  intro env fuel d hmem
  simp only [get_records, get_records_from] at hmem ⊢
  obtain ⟨good, tail, hsplit, hgood, hrecs, hfin, hfuel, hmark, hstop⟩ :=
    crawlLoop_post env fuel 1 [] [] (Strong_nil [])
  have hnotgood : (d, XlsValue.str "") ∉ good := by
    intro hin
    have h1 := (hgood _ hin).1
    have h2 : (XlsValue.str "").isFalsy = true := by decide
    rw [h1] at h2
    exact absurd h2 (by simp)
  have hmem2 : (d, XlsValue.str "") ∈ tail := by
    rcases List.mem_append.1 (by rw [← hsplit]; exact hmem) with h | h
    · exact absurd h hnotgood
    · exact h
  cases ho : (crawlLoop env fuel 1 []).outcome with
  | fuelOut =>
      obtain ⟨ht, _⟩ := hfuel ho
      rw [ht] at hmem2
      exact absurd hmem2 (List.not_mem_nil _)
  | markupAbort =>
      have ht := hmark ho
      rw [ht] at hmem2
      exact absurd hmem2 (List.not_mem_nil _)
  | stopped =>
      obtain ⟨d2, p2, ht, h1, h2⟩ := hstop ho
      rw [ht] at hmem2
      have heq := List.mem_singleton.1 hmem2
      rw [Prod.mk.injEq] at heq
      obtain ⟨hd, hp⟩ := heq
      subst hd
      refine ⟨rfl, ?_, ⟨good, ?_, hgood, hrecs⟩, ?_⟩
      · exact h1 (by rw [← hp]; rfl)
      · rw [hsplit, ht, ← hp]
      · intro k
        exact crawlLoop_stable env fuel 1 [] (by rw [ho]; simp) k

/-- C1, witness: on a site whose single bulletin lacks the market price
column, extraction is absent, the run stops and the file is gone. -/
theorem C1_termination_protocol_witness :
    (("01.01.2021", XlsValue.str "") ∈ (get_records envAbs 2).exts) ∧
    (get_records envAbs 2).outcome = .stopped ∧
    (get_records envAbs 2).fs.lookup ("01.01.2021" ++ ".xls") = none :=
  ⟨by decide,
    (C1_termination_protocol envAbs 2 "01.01.2021" (by decide)).1,
    (C1_termination_protocol envAbs 2 "01.01.2021" (by decide)).2.1⟩

/-- C2, counterexample: on a bulletin whose target cell holds the number
zero, extraction succeeds in the sense of the specification — both label
searches match and the intersection cell is non-empty, the extracted value
being the number 0 rather than absent — yet after the run no file for that
date is on disk, so a file exists if and only if extraction succeeded is
false at this input. -/
theorem C2_cache_integrity_cex :
    (get_records envZero 2).exts = [("01.01.2021", XlsValue.num 0)] ∧
    get_market_price sheetZero targetRow targetCol = XlsValue.num 0 ∧
    specColIndex sheetZero targetCol = some 1 ∧
    specRowIndex sheetZero targetRow = some 1 ∧
    sheetZero.cell_value 1 1 ≠ XlsValue.str "" ∧
    (get_records envZero 2).fs.lookup ("01.01.2021" ++ ".xls") = none := by
  refine ⟨?_, ?_, ?_, ?_, ?_, ?_⟩
  · decide
  · decide
  · decide
  · decide
  · decide
  · decide

/-- C2, amended: for every date processed during a run, started from any
report directory, the spreadsheet file of that date exists on disk after
the run exactly when the extraction logged for it returned a truthy value;
absent results and other falsy values (such as a numeric zero) leave no
file behind. -/
theorem C2_cache_integrity :
    ∀ (env : CrawlEnv) (fs0 : Reports) (fuel : Nat) (d : String) (p : XlsValue),
      (d, p) ∈ (get_records_from env fs0 fuel).exts →
      (p.isFalsy = false ↔
        ((get_records_from env fs0 fuel).fs.lookup (d ++ ".xls")).isSome = true) := by
  intro env fs0 fuel d p hmem
  simp only [get_records_from] at hmem ⊢
  obtain ⟨good, tail, hsplit, hgood, hrecs, hfin, _, _, _⟩ :=
    crawlLoop_post env fuel 1 fs0 [] (Strong_nil fs0)
  exact hfin (d, p) (by simpa using hmem)

/-- C2, witness: applied to the numeric-zero bulletin, both sides of the
equivalence are false — the value is falsy and no file remains. -/
theorem C2_cache_integrity_witness :
    (XlsValue.num 0).isFalsy = false ↔
      ((get_records_from envZero [] 2).fs.lookup ("01.01.2021" ++ ".xls")).isSome = true :=
  C2_cache_integrity envZero [] 2 "01.01.2021" (XlsValue.num 0) (by decide)

/-- C10: the absence test of the controller is plain Python falsiness of the
extracted value: every falsy logged extraction — the empty string, but
equally a numeric zero — stops the whole run and leaves no file for its
date, and both the number zero and the empty string are falsy. -/
theorem C10_falsy_termination :
    (∀ (env : CrawlEnv) (fuel : Nat) (d : String) (p : XlsValue),
      (d, p) ∈ (get_records env fuel).exts → p.isFalsy = true →
      (get_records env fuel).outcome = .stopped ∧
      (get_records env fuel).fs.lookup (d ++ ".xls") = none) ∧
    (XlsValue.num 0).isFalsy = true ∧ (XlsValue.str "").isFalsy = true := by
  refine ⟨?_, by decide, by decide⟩
  intro env fuel d p hmem hp
  simp only [get_records, get_records_from] at hmem ⊢
  obtain ⟨good, tail, hsplit, hgood, hrecs, hfin, hfuel, hmark, hstop⟩ :=
    crawlLoop_post env fuel 1 [] [] (Strong_nil [])
  have hnotgood : (d, p) ∉ good := by
    intro hin
    have := (hgood _ hin).1
    rw [hp] at this
    exact absurd this (by simp)
  have hmem2 : (d, p) ∈ tail := by
    rcases List.mem_append.1 (by rw [← hsplit]; exact hmem) with h | h
    · exact absurd h hnotgood
    · exact h
  cases ho : (crawlLoop env fuel 1 []).outcome with
  | fuelOut =>
      obtain ⟨ht, _⟩ := hfuel ho
      rw [ht] at hmem2
      exact absurd hmem2 (List.not_mem_nil _)
  | markupAbort =>
      have ht := hmark ho
      rw [ht] at hmem2
      exact absurd hmem2 (List.not_mem_nil _)
  | stopped =>
      obtain ⟨d2, p2, ht, h1, h2⟩ := hstop ho
      rw [ht] at hmem2
      have heq := List.mem_singleton.1 hmem2
      rw [Prod.mk.injEq] at heq
      obtain ⟨hd, hpe⟩ := heq
      subst hd
      exact ⟨rfl, h1 (by rw [← hpe]; exact hp)⟩

/-- C10, witness: the numeric-zero bulletin stops the run and its file is
deleted. -/
theorem C10_falsy_termination_witness :
    (get_records envZero 2).outcome = .stopped ∧
    (get_records envZero 2).fs.lookup ("01.01.2021" ++ ".xls") = none :=
  C10_falsy_termination.1 envZero 2 "01.01.2021" (XlsValue.num 0) (by decide) (by decide)

/-- C7, counterexample: a site with one well-formed extractable bulletin
whose display date does not parse in the DD.MM.YYYY format.  No extraction
is absent or even falsy and no markup exception occurs, yet the ValueError
raised by strptime is caught like the sentinel and the crawl stops after
page 1: page 2 is never launched, refuting absent extraction as the sole
stop condition. -/
theorem C7_sole_stop_cex :
    (get_records envBadDate 2).outcome = .stopped ∧
    (get_records envBadDate 2).exts = [("not-a-date", XlsValue.str "A592UFM060F")] ∧
    (XlsValue.str "A592UFM060F").isFalsy = false ∧
    strptime "not-a-date" = none ∧
    (get_records envBadDate 2).trace = [Ev.launch 1, Ev.complete 1] := by
  refine ⟨?_, ?_, ?_, ?_, ?_⟩
  · decide
  · decide
  · decide
  · decide
  · decide

/-- C7, amended: when every listing element is well formed, every logged
extraction is truthy and every processed date string parses, the crawl
never stops: it launches one page task after another for as long as it has
fuel; in particular a page with no matching blocks yields no extraction and
is not a termination signal.  The date condition cannot be dropped: an
unparsable date raises the very ValueError used as the sentinel. -/
theorem C7_no_stop :
    ∀ (env : CrawlEnv) (fuel : Nat),
      (∀ c el, el ∈ env.pages c → wellFormedEl el) →
      (∀ e ∈ (get_records env fuel).exts,
        e.2.isFalsy = false ∧ (strptime e.1).isSome = true) →
      (get_records env fuel).outcome = .fuelOut ∧
      (get_records env fuel).trace = seqTrace 1 fuel := by
  intro env fuel hw hext
  simp only [get_records, get_records_from] at hext ⊢
  exact crawlLoop_noStop env hw fuel 1 [] hext

/-- C7, witness: a site with no matching blocks at all runs through all its
fuel, launching every page in sequence, and never stops. -/
theorem C7_no_stop_witness :
    (get_records envEmpty 3).outcome = .fuelOut ∧
    (get_records envEmpty 3).trace = seqTrace 1 3 :=
  C7_no_stop envEmpty 3
    (fun c el hel => absurd hel (List.not_mem_nil el))
    (fun e he => by
      rw [show (get_records envEmpty 3).exts = [] from by decide] at he
      exact absurd he (List.not_mem_nil e))

/-- C8, counterexample: in a concrete two-page crawl the scheduling trace
is launch 1, complete 1, launch 2, complete 2 — the task for page 2 is
launched strictly after the task for page 1 has completed, refuting the
claim that the task for page n+1 is launched before the task for page n is
known to have completed. -/
theorem C8_pipelined_cex :
    (get_records envEmpty 2).trace
        = [Ev.launch 1, Ev.complete 1, Ev.launch 2, Ev.complete 2] ∧
    (get_records envEmpty 2).trace.indexOf (Ev.complete 1)
        < (get_records envEmpty 2).trace.indexOf (Ev.launch 2) ∧
    (get_records envEmpty 2).trace.count (Ev.launch 2) = 1 ∧
    (get_records envEmpty 2).trace.count (Ev.complete 1) = 1 := by
  refine ⟨?_, ?_, ?_, ?_⟩
  · decide
  · decide
  · decide
  · decide

/-- C8, amended: page tasks run strictly sequentially, because the loop
blocks on all tasks launched so far before creating the next one: in every
run trace the completion of page n precedes the launch of page n+1 whenever
page n+1 is launched at all. -/
theorem C8_sequential :
    ∀ (env : CrawlEnv) (fuel n : Nat),
      1 ≤ n →
      Ev.launch (n + 1) ∈ (get_records env fuel).trace →
      precedes (get_records env fuel).trace (Ev.complete n) (Ev.launch (n + 1)) := by
  intro env fuel n hn hmem
  simp only [get_records, get_records_from] at hmem ⊢
  obtain ⟨m, hm, htr⟩ := crawlLoop_trace env fuel 1 []
  rw [htr] at hmem ⊢
  have hb := (launch_mem_seqTrace m 1 (n + 1)).1 hmem
  exact seq_precedes m 1 n (n + 1) hn (by omega) (by omega)

/-- C8, witness: in the two-page run the completion of page 1 precedes the
launch of page 2. -/
theorem C8_sequential_witness :
    (1 ≤ 1 ∧ Ev.launch 2 ∈ (get_records envEmpty 2).trace) ∧
    precedes (get_records envEmpty 2).trace (Ev.complete 1) (Ev.launch 2) :=
  ⟨⟨by decide, by decide⟩, C8_sequential envEmpty 2 1 (by decide) (by decide)⟩

/-- C9, counterexample: a block whose anchor text contains the marker
phrase only as a proper substring of its single child string is not
processed, because the membership test of line 128 compares the phrase for
equality against the direct children of the anchor: on a site with one such
block the run logs no extraction, produces no record and does not stop. -/
theorem C9_filter_cex :
    containsStr (textToSearch ++ " за 14.05.2021") textToSearch = true ∧
    ((textToSearch ++ " за 14.05.2021") == textToSearch) = false ∧
    (get_records envSubstr 1).exts = [] ∧
    (get_records envSubstr 1).records = [] ∧
    (get_records envSubstr 1).outcome = .fuelOut := by
  refine ⟨?_, ?_, ?_, ?_, ?_⟩
  · decide
  · decide
  · decide
  · decide
  · decide

/-- C9, amended: exactly the blocks one of whose anchor direct child
strings equals the marker phrase are processed.  A block with an anchor but
no child equal to the phrase — even one whose anchor text contains the
phrase as a substring — is skipped silently with no effect and no record;
a matching block proceeds to extraction, logging the date and price (or
raises the markup exception when its span is missing). -/
theorem C9_entry_filter :
    ∀ (env : CrawlEnv) (fs : Reports) (el : Element) (tag : ATag),
      el.anchor = some tag →
      (tag.children.contains textToSearch = false →
        processOne env fs el = ⟨fs, none, none, none⟩) ∧
      (tag.children.contains textToSearch = true →
        (el.spanText = none → (processOne env fs el).err = some .markupError) ∧
        (∀ date, el.spanText = some date →
          ∃ p, (processOne env fs el).ext = some (date, p))) := by
  intro env fs el tag htag
  obtain ⟨anc, sp⟩ := el
  simp only at htag
  subst htag
  constructor
  · intro hm
    exact processOne_skip env fs tag sp hm
  · intro hm
    constructor
    · intro hsp
      simp only at hsp
      subst hsp
      rw [processOne_noSpan env fs tag hm]
    · intro date hsp
      simp only at hsp
      subst hsp
      exact ⟨_, processOne_matched_ext env fs tag date hm⟩

/-- C9, witness: a non-matching anchor is skipped with no effect, and a
matching one logs an extraction for its date. -/
theorem C9_entry_filter_witness :
    processOne envAbs [] ⟨some ⟨"h", ["other"]⟩, some "01.01.2021"⟩ = ⟨[], none, none, none⟩ ∧
    ∃ p, (processOne envAbs [] (elGood "01.01.2021")).ext = some ("01.01.2021", p) :=
  ⟨(C9_entry_filter envAbs [] ⟨some ⟨"h", ["other"]⟩, some "01.01.2021"⟩
      ⟨"h", ["other"]⟩ rfl).1 (by decide),
   ((C9_entry_filter envAbs [] (elGood "01.01.2021")
      ⟨"h", [textToSearch]⟩ rfl).2 (by decide)).2 "01.01.2021" rfl⟩

end Spimex
